import Mathlib

/-!
# PageRank (pagerank.py): shallow embedding and verification

This file embeds the three core functions of `pagerank.py` —
`transition_model`, `sample_pagerank` and `iterate_pagerank` — as
executable Lean definitions and proves/refutes the specification's
claims about them.

Modelling decisions:
* A Python `dict` is an insertion-ordered association list
  `List (Page × _)`; iteration over the dict follows the list order,
  exactly as Python dicts iterate in insertion order.
* Python floats are modelled as exact rationals `ℚ` (real-number
  semantics of the arithmetic the code performs).
* `random.choice` / `random.choices` are modelled by an oracle stream
  `rnd : ℕ → ℕ` of draws; a draw from a list picks index `rnd i % length`,
  so a draw from a non-empty list always yields a member of the list, and
  a draw from an empty list fails (Python raises `IndexError` there),
  modelled as `none`.
* The unbounded `while` loop of `iterate_pagerank` is modelled with
  explicit fuel; `none` means the loop has not exited within the given
  number of passes.
-/

namespace PageRank

abbrev Page := String

/-- A corpus: Python dict mapping a page to the list of pages it links to
(`set` in Python; iteration order of the dict is insertion order). -/
abbrev Corpus := List (Page × List Page)

/-- A rank / probability mapping: Python dict from page to number. -/
abbrev RankMap := List (Page × ℚ)

/-- Sum of all values of a mapping (used to state the sum-to-1 claims). -/
def sumValues (l : RankMap) : ℚ := (l.map Prod.snd).sum

/-- `d[k] += x` on a Python dict: add `x` to the entry of key `k`.
(Python raises `KeyError` when `k` is absent; under the link-graph
invariant every key added to is present, so absence is unreachable.) -/
def addTo (l : RankMap) (k : Page) (x : ℚ) : RankMap :=
  l.map (fun p => if p.1 = k then (p.1, p.2 + x) else p)

/-- `d[k] = v` on a Python dict: replace the entry of key `k`, or append
a new entry at the end when `k` is absent (Python dicts keep insertion
order, so a fresh key goes to the back). -/
def setTo (l : RankMap) (k : Page) (v : ℚ) : RankMap :=
  if l.any (fun p => p.1 = k) then
    l.map (fun p => if p.1 = k then (p.1, v) else p)
  else l ++ [(k, v)]

/-- `transition_model(corpus, page, damping_factor)` from `pagerank.py`:

    prob = dict()
    for web in corpus:
        prob[web] = (1-damping_factor)/len(corpus)
    for link in corpus[page]:
        prob[link] += damping_factor/len(corpus[page])
    return prob
-/
def transition_model (corpus : Corpus) (page : Page) (damping_factor : ℚ) :
    RankMap :=
  let base : RankMap :=
    corpus.map (fun wp => (wp.1, (1 - damping_factor) / (corpus.length : ℚ)))
  let links : List Page := ((corpus.lookup page).getD [])
  links.foldl (fun prob link =>
    addTo prob link (damping_factor / (links.length : ℚ))) base

/-- `random.choice` / `random.choices(...)[0]` on a list of pages, driven
by one oracle value `r`: picks index `r % length`; on an empty list Python
raises `IndexError`, modelled as `none` (note `r % 0 = r` in Lean, and
`List.get?` of the empty list is `none`). -/
def randChoice (r : ℕ) (l : List Page) : Option Page :=
  l.get? (r % l.length)

/-- The sampling loop of `sample_pagerank`:

    for i in range(n):
        dist = transition_model(corpus, page, damping_factor)
        page = random.choices(list(dist.keys()), weights=list(dist.values()), k=1)[0]
        prank[page] += 1/n

`k` counts the remaining iterations; `rnd` supplies the random draws. -/
def sampleLoop (corpus : Corpus) (damping_factor : ℚ) (n : ℕ) (rnd : ℕ → ℕ) :
    ℕ → Page → RankMap → Option RankMap
  | 0, _, prank => some prank
  | k + 1, page, prank =>
      let dist := transition_model corpus page damping_factor
      match randChoice (rnd (n - k)) (dist.map Prod.fst) with
      | none => none
      | some page' =>
          sampleLoop corpus damping_factor n rnd k page'
            (addTo prank page' (1 / (n : ℚ)))

/-- `sample_pagerank(corpus, damping_factor, n)` from `pagerank.py`:

    prank = dict()
    for web in corpus:
        prank[web] = 0
    page = random.choice(list(corpus.keys()))
    prank[page] += 1/n
    for i in range(n):
        dist = transition_model(corpus, page, damping_factor)
        page = random.choices(list(dist.keys()), weights=list(dist.values()), k=1)[0]
        prank[page] += 1/n
    return prank

`none` models the `IndexError` that `random.choice` raises on an empty
corpus. -/
def sample_pagerank (corpus : Corpus) (damping_factor : ℚ) (n : ℕ)
    (rnd : ℕ → ℕ) : Option RankMap :=
  let prank : RankMap := corpus.map (fun wp => (wp.1, (0 : ℚ)))
  match randChoice (rnd 0) (corpus.map Prod.fst) with
  | none => none
  | some page =>
      sampleLoop corpus damping_factor n rnd n page
        (addTo prank page (1 / (n : ℚ)))

/-- The inner accumulation of `iterate_pagerank` for one target page `web`:

    sigma = 0
    for link in corpus:
        if web in corpus[link]:
            sigma += rank[link]/len(corpus[link])
        elif not corpus[link]:
            sigma += rank[link]/len(corpus)
-/
def sigmaFor (corpus : Corpus) (rank : RankMap) (web : Page) : ℚ :=
  corpus.foldl (fun s lp =>
    if web ∈ lp.2 then s + ((rank.lookup lp.1).getD 0) / (lp.2.length : ℚ)
    else if lp.2 = [] then s + ((rank.lookup lp.1).getD 0) / (corpus.length : ℚ)
    else s) 0

/-- The new-rank formula applied to a given rank state:
`(1-damping_factor)/len(corpus) + damping_factor*sigma`. -/
def newRank (corpus : Corpus) (damping_factor : ℚ) (rank : RankMap)
    (web : Page) : ℚ :=
  (1 - damping_factor) / (corpus.length : ℚ) + damping_factor * sigmaFor corpus rank web

/-- One pass of the `while` loop of `iterate_pagerank` over the remaining
pages `webs`, updating `rank` **in place** exactly as the source does:

    for web in corpus:
        sigma = ...          # computed from the current (partially updated) rank
        prob = (1-damping_factor)/len(corpus) + damping_factor*sigma
        if abs(rank[web] - prob) <= 0.001:
            count += 1
        rank[web] = prob

Returns the rank dict after the pass together with the final `count`. -/
def iterPass (corpus : Corpus) (damping_factor : ℚ) :
    List Page → RankMap → ℕ → RankMap × ℕ
  | [], rank, count => (rank, count)
  | web :: webs, rank, count =>
      let prob := newRank corpus damping_factor rank web
      let count' :=
        if |((rank.lookup web).getD 0) - prob| ≤ 1 / 1000 then count + 1
        else count
      iterPass corpus damping_factor webs (setTo rank web prob) count'

/-- The `while check:` loop of `iterate_pagerank`, with fuel:

    while check:
        count = 0
        for web in corpus: ...   # iterPass
        if count >= len(corpus):
            check = False

`none` means the loop has not exited within `fuel` passes. -/
def iterLoop (corpus : Corpus) (damping_factor : ℚ) :
    ℕ → RankMap → Option RankMap
  | 0, _ => none
  | fuel + 1, rank =>
      let pc := iterPass corpus damping_factor (corpus.map Prod.fst) rank 0
      if corpus.length ≤ pc.2 then some pc.1
      else iterLoop corpus damping_factor fuel pc.1

/-- `iterate_pagerank(corpus, damping_factor)` from `pagerank.py`, with
fuel for the unbounded `while` loop:

    rank = dict()
    for web in corpus:
        rank[web] = 1/len(corpus)
    check = True
    while check: ...
    return rank
-/
def iterate_pagerank (corpus : Corpus) (damping_factor : ℚ) (fuel : ℕ) :
    Option RankMap :=
  iterLoop corpus damping_factor fuel
    (corpus.map (fun wp => (wp.1, 1 / (corpus.length : ℚ))))

/-- A full pass computed entirely from the pre-pass snapshot (what the
spec describes for the Iterative Ranker): every page's new rank uses the
ranks as they stood at the start of the pass. -/
def snapshotPass (corpus : Corpus) (damping_factor : ℚ) (rank : RankMap) :
    RankMap :=
  corpus.map (fun wp => (wp.1, newRank corpus damping_factor rank wp.1))

/-- The concrete corpus of the spec's worked example:
`{"1.html": {"2.html","3.html"}, "2.html": {"3.html"}, "3.html": {"2.html"}}`. -/
def exampleCorpus : Corpus :=
  [("1.html", ["2.html", "3.html"]), ("2.html", ["3.html"]),
   ("3.html", ["2.html"])]

/-- A three-page corpus on which the iterative loop diverges when the
damping factor is 2: pages `a` and `b` link to each other and `c` links
to `a`, so `b`'s rank grows without bound pass after pass. -/
def divergingCorpus : Corpus :=
  [("a", ["b"]), ("b", ["a"]), ("c", ["a"])]

/-- A two-page corpus in which the pages link to each other; the iterative
ranker converges on it immediately (used to witness the general theorems). -/
def twoCycleCorpus : Corpus := [("a", ["b"]), ("b", ["a"])]

/-- Unfolding lemma for `List.lookup` on a cons cell, phrased with a
propositional `if`. -/
theorem lookup_cons (k a₁ : Page) (a₂ : ℚ) (t : RankMap) :
    List.lookup k ((a₁, a₂) :: t) = if k = a₁ then some a₂ else List.lookup k t := by
  by_cases h : k = a₁
  · simp [List.lookup, h]
  · have hb : (k == a₁) = false := beq_eq_false_iff_ne.mpr h
    simp [List.lookup, hb, h]

/-- Replacing the value at a present key makes that key look up the new
value. -/
theorem lookup_map_replace (l : RankMap) (k : Page) (v : ℚ)
    (h : l.any (fun p => p.1 = k)) :
    (l.map (fun p => if p.1 = k then (p.1, v) else p)).lookup k = some v := by
  induction l with
  | nil => simp at h
  | cons a t ih =>
    obtain ⟨a₁, a₂⟩ := a
    simp only [List.any_cons, Bool.or_eq_true, decide_eq_true_eq] at h
    by_cases ha : a₁ = k
    · simp only [List.map_cons]
      rw [if_pos ha, lookup_cons, if_pos ha.symm]
    · have ht : t.any (fun p => p.1 = k) := by
        rcases h with h1 | h2
        · exact absurd h1 ha
        · exact h2
      simp only [List.map_cons]
      rw [if_neg ha, lookup_cons, if_neg (fun hk => ha hk.symm)]
      exact ih ht

/-- Appending a fresh key at the back makes that key look up the appended
value. -/
theorem lookup_append_of_none (l : RankMap) (k : Page) (v : ℚ)
    (h : l.any (fun p => p.1 = k) = false) :
    (l ++ [(k, v)]).lookup k = some v := by
  induction l with
  | nil => rw [List.nil_append, lookup_cons, if_pos rfl]
  | cons a t ih =>
    obtain ⟨a₁, a₂⟩ := a
    simp only [List.any_cons, Bool.or_eq_false_iff, decide_eq_false_iff_not] at h
    rw [List.cons_append, lookup_cons, if_neg (fun hk => h.1 hk.symm)]
    exact ih (by simpa using h.2)

/-- Looking up the written key after `setTo` yields the written value
(whether the key was replaced in place or appended, i.e. exactly like a
Python dict assignment). -/
theorem lookup_setTo_self (l : RankMap) (k : Page) (v : ℚ) :
    (setTo l k v).lookup k = some v := by
  unfold setTo
  by_cases h : l.any (fun p => p.1 = k)
  · rw [if_pos h]
    exact lookup_map_replace l k v h
  · rw [if_neg h]
    exact lookup_append_of_none l k v (Bool.eq_false_iff.mpr h)

/-- Replacing the value at key `k` does not affect lookups of other keys. -/
theorem lookup_map_replace_ne (l : RankMap) (k : Page) (v : ℚ) (k' : Page)
    (h : k' ≠ k) :
    (l.map (fun p => if p.1 = k then (p.1, v) else p)).lookup k' = l.lookup k' := by
  induction l with
  | nil => rfl
  | cons a t ih =>
    obtain ⟨a₁, a₂⟩ := a
    by_cases ha : a₁ = k
    · simp only [List.map_cons, if_pos ha]
      have hne : ¬ (k' = a₁) := fun hk' => h (hk'.trans ha)
      rw [lookup_cons, lookup_cons, if_neg hne, if_neg hne, ih]
    · simp only [List.map_cons]
      rw [if_neg ha, lookup_cons, lookup_cons, ih]

/-- Appending an entry for key `k` does not affect lookups of other keys. -/
theorem lookup_append_ne (l : RankMap) (k : Page) (v : ℚ) (k' : Page)
    (h : k' ≠ k) :
    (l ++ [(k, v)]).lookup k' = l.lookup k' := by
  induction l with
  | nil => rw [List.nil_append, lookup_cons, if_neg h]
  | cons a t ih =>
    obtain ⟨a₁, a₂⟩ := a
    rw [List.cons_append, lookup_cons, lookup_cons, ih]

/-- Looking up a different key is unaffected by `setTo`. -/
theorem lookup_setTo_ne (l : RankMap) (k : Page) (v : ℚ) (k' : Page)
    (h : k' ≠ k) : (setTo l k v).lookup k' = l.lookup k' := by
  unfold setTo
  by_cases hany : l.any (fun p => p.1 = k)
  · rw [if_pos hany]
    exact lookup_map_replace_ne l k v k' h
  · rw [if_neg hany]
    exact lookup_append_ne l k v k' h

/-- Writing to a key already present in the mapping preserves the key
list. -/
theorem setTo_keys_of_present (l : RankMap) (k : Page) (v : ℚ)
    (h : l.any (fun p => p.1 = k)) :
    (setTo l k v).map Prod.fst = l.map Prod.fst := by
  simp only [setTo, h, if_true, List.map_map]
  refine List.map_congr_left ?_
  intro p _
  by_cases hp : p.1 = k <;> simp [hp]

/-- `addTo` preserves the key list of the mapping. -/
theorem addTo_keys (l : RankMap) (k : Page) (x : ℚ) :
    (addTo l k x).map Prod.fst = l.map Prod.fst := by
  simp only [addTo, List.map_map]
  refine List.map_congr_left ?_
  intro p _
  by_cases hp : p.1 = k <;> simp [hp]

/-- Folding `addTo` over a list of links preserves the key list. -/
theorem foldl_addTo_keys (links : List Page) (l : RankMap) (x : ℚ) :
    (links.foldl (fun pr link => addTo pr link x) l).map Prod.fst =
      l.map Prod.fst := by
  induction links generalizing l with
  | nil => rfl
  | cons a t ih => simp [List.foldl_cons, ih, addTo_keys]

/-- `transition_model` always returns a mapping whose keys are exactly the
corpus's keys, in corpus order (the claims about output completeness rest
on this). -/
theorem transition_model_keys (corpus : Corpus) (page : Page) (d : ℚ) :
    (transition_model corpus page d).map Prod.fst = corpus.map Prod.fst := by
  unfold transition_model
  rw [foldl_addTo_keys]
  simp [List.map_map, Function.comp]

/-- `addTo` with a non-negative addend preserves a lower bound on all
values. -/
theorem addTo_lower_bound {l : RankMap} {k : Page} {x c : ℚ} (hx : 0 ≤ x)
    (h : ∀ pv ∈ l, c ≤ pv.2) : ∀ pv ∈ addTo l k x, c ≤ pv.2 := by
  intro pv hpv
  simp only [addTo, List.mem_map] at hpv
  obtain ⟨q, hq, rfl⟩ := hpv
  by_cases hqk : q.1 = k
  · simp only [hqk, if_true]
    have := h q hq
    linarith
  · simpa [hqk] using h q hq

/-- Folding `addTo` with a non-negative addend preserves a lower bound on
all values. -/
theorem foldl_addTo_lower_bound {x c : ℚ} (hx : 0 ≤ x) :
    ∀ (links : List Page) (l : RankMap), (∀ pv ∈ l, c ≤ pv.2) →
      ∀ pv ∈ links.foldl (fun pr link => addTo pr link x) l, c ≤ pv.2 := by
  intro links
  induction links with
  | nil => intro l h; simpa using h
  | cons a t ih =>
    intro l h
    simpa [List.foldl_cons] using ih (addTo l a x) (addTo_lower_bound hx h)

/-- `addTo` with addend `1/n` keeps every value a natural multiple of
`1/n`. -/
theorem addTo_nat_multiple {n : ℕ} {l : RankMap}
    (h : ∀ pv ∈ l, ∃ m : ℕ, pv.2 = (m : ℚ) / n) (k : Page) :
    ∀ pv ∈ addTo l k (1 / (n : ℚ)), ∃ m : ℕ, pv.2 = (m : ℚ) / n := by
  intro pv hpv
  simp only [addTo, List.mem_map] at hpv
  obtain ⟨q, hq, rfl⟩ := hpv
  obtain ⟨m, hm⟩ := h q hq
  by_cases hqk : q.1 = k
  · refine ⟨m + 1, ?_⟩
    simp only [hqk, if_true]
    rw [hm]
    push_cast
    rw [div_add_div_same]
  · exact ⟨m, by simpa [hqk] using hm⟩

/-- Drawing from a non-empty list always succeeds and yields a member of
the list (this is how `random.choice` behaves on a non-empty sequence). -/
theorem randChoice_isSome {l : List Page} (h : l ≠ []) (r : ℕ) :
    ∃ p, randChoice r l = some p ∧ p ∈ l := by
  have hlt : r % l.length < l.length :=
    Nat.mod_lt _ (List.length_pos.mpr h)
  refine ⟨l.get ⟨r % l.length, hlt⟩, ?_, List.get_mem _ _ _⟩
  simp [randChoice, List.get?_eq_get hlt]

/-- The rank state produced by `iterPass` does not depend on the incoming
convergence counter. -/
theorem iterPass_fst_count (c : Corpus) (d : ℚ) :
    ∀ (webs : List Page) (rank : RankMap) (count count' : ℕ),
      (iterPass c d webs rank count).1 = (iterPass c d webs rank count').1 := by
  intro webs
  induction webs with
  | nil => intro rank count count'; rfl
  | cons w rest ih =>
    intro rank count count'
    simp only [iterPass]
    exact ih _ _ _

/-- A page not in the processed list keeps its entry unchanged through a
(possibly remaining part of a) pass. -/
theorem iterPass_lookup_of_notMem (c : Corpus) (d : ℚ) {w : Page} :
    ∀ (webs : List Page) (rank : RankMap) (count : ℕ), w ∉ webs →
      (iterPass c d webs rank count).1.lookup w = rank.lookup w := by
  intro webs
  induction webs with
  | nil => intro rank count _; rfl
  | cons p rest ih =>
    intro rank count hw
    simp only [List.mem_cons, not_or] at hw
    simp only [iterPass]
    rw [ih _ _ hw.2, lookup_setTo_ne _ _ _ _ hw.1]

/-- C8: on the corpus `{"1.html": {"2.html","3.html"}, "2.html": {"3.html"},
"3.html": {"2.html"}}` with current page `"1.html"` and damping factor 0.85,
`transition_model` returns exactly
`{"1.html": 0.05, "2.html": 0.475, "3.html": 0.475}` (exact rational
arithmetic). -/
theorem transition_model_example_eval :
    transition_model exampleCorpus "1.html" (17 / 20) =
      [("1.html", 0.05), ("2.html", 0.475), ("3.html", 0.475)] := by
  simp [transition_model, exampleCorpus, addTo, List.lookup]
  norm_num

/-- C1: evaluation of `transition_model` at a dangling page. On the
one-page corpus `{"a.html": {}}` the current page has zero outbound links,
yet the result assigns `(1 - 0.85)/1 = 0.15` to the page — not the uniform
`1/N = 1` that the claim (and the function's own docstring) requires: the
`damping_factor` mass is dropped entirely. -/
theorem transition_model_dangling_eval :
    transition_model [("a.html", [])] "a.html" (17 / 20) = [("a.html", 0.15)] ∧
      (0.15 : ℚ) ≠ 1 := by
  constructor
  · simp [transition_model, addTo, List.lookup]
    norm_num
  · norm_num

/-- C2: evaluation of `transition_model` at a dangling current page on the
two-page corpus `{"a": {}, "b": {"a"}}` (a valid link graph: dangling pages
are allowed by the invariants). The returned values sum to
`1 - 0.85 = 0.15`, not 1, contradicting the sum-to-1 claim and the
function's own docstring. -/
theorem transition_model_dangling_sum :
    sumValues (transition_model [("a", []), ("b", ["a"])] "a" (17 / 20)) = 0.15 ∧
      (0.15 : ℚ) ≠ 1 := by
  constructor
  · simp [transition_model, addTo, List.lookup, sumValues]
    norm_num
  · norm_num

/-- C3: evaluation of `sample_pagerank` with `n = 1` on the two-page corpus
`{"a": {"b"}, "b": {"a"}}` (oracle always drawing index 0). The code makes
`n + 1` draws, each weighted `1/n`, so the returned values sum to
`(n+1)/n = 2`, not 1, contradicting the claim and the function's own
docstring. -/
theorem sample_pagerank_sum_off_by_one :
    (sample_pagerank [("a", ["b"]), ("b", ["a"])] (17 / 20) 1 (fun _ => 0)).map
        sumValues = some 2 ∧ (2 : ℚ) ≠ 1 := by
  constructor
  · simp [sample_pagerank, sampleLoop, randChoice, transition_model, addTo,
      List.lookup, sumValues]
    norm_num
  · norm_num

/-- C4 counterexample: one in-place pass of the iterative ranker differs
from the pass computed entirely from the pre-pass snapshot. On
`divergingCorpus` with damping 0.85 and all ranks `1/3`, page `"b"` gets
`689/1200` in the in-place pass (it sees `"a"`'s already-updated rank
`37/60`) but `1/3` from the snapshot. -/
theorem iterPass_ne_snapshotPass :
    (iterPass divergingCorpus (17 / 20) (divergingCorpus.map Prod.fst)
        [("a", 1 / 3), ("b", 1 / 3), ("c", 1 / 3)] 0).1 ≠
      snapshotPass divergingCorpus (17 / 20)
        [("a", 1 / 3), ("b", 1 / 3), ("c", 1 / 3)] := by
  have h1 : (iterPass divergingCorpus (17 / 20) (divergingCorpus.map Prod.fst)
      [("a", 1 / 3), ("b", 1 / 3), ("c", 1 / 3)] 0).1 =
      [("a", 37 / 60), ("b", 689 / 1200), ("c", 1 / 20)] := by
    simp [iterPass, divergingCorpus, newRank, sigmaFor, setTo, List.lookup]
    norm_num
  have h2 : snapshotPass divergingCorpus (17 / 20)
      [("a", 1 / 3), ("b", 1 / 3), ("c", 1 / 3)] =
      [("a", 37 / 60), ("b", 1 / 3), ("c", 1 / 20)] := by
    simp [snapshotPass, divergingCorpus, newRank, sigmaFor, List.lookup]
    norm_num
  rw [h1, h2]
  intro h
  have hb := congrArg (fun l => (List.lookup "b" l).getD 0) h
  simp [List.lookup] at hb
  norm_num at hb

/-- C5 counterexample: on the empty corpus the iterative ranker does not
fail at all — its first pass trivially counts `0 ≥ 0` converged pages and
it returns the empty mapping. (The code contains no `InvalidCorpus` error
anywhere.) -/
theorem iterate_pagerank_empty_returns_map :
    iterate_pagerank ([] : Corpus) (17 / 20) 1 = some [] := rfl

/-- C5 amended: on the empty corpus, `sample_pagerank` fails synchronously
with the `IndexError` raised by `random.choice` on an empty sequence
(modelled as `none`) — not with an `InvalidCorpus` error — while
`iterate_pagerank` does not fail: it exits its loop after the first
(empty) pass and returns the empty mapping. -/
theorem empty_corpus_behavior (d : ℚ) (n k : ℕ) (rnd : ℕ → ℕ) :
    sample_pagerank [] d n rnd = none ∧
      iterate_pagerank [] d (k + 1) = some [] := by
  constructor
  · simp [sample_pagerank, randChoice]
  · simp [iterate_pagerank, iterLoop, iterPass]

/-- Unfolding equation for one step of `iterPass` (rank component). -/
theorem iterPass_cons_fst (c : Corpus) (d : ℚ) (w : Page) (rest : List Page)
    (rank : RankMap) (count : ℕ) :
    (iterPass c d (w :: rest) rank count).1 =
      (iterPass c d rest (setTo rank w (newRank c d rank w))
        (if |(rank.lookup w).getD 0 - newRank c d rank w| ≤ 1 / 1000 then count + 1
         else count)).1 := rfl

/-- Unfolding equation for one step of `iterPass` (counter component). -/
theorem iterPass_cons_snd (c : Corpus) (d : ℚ) (w : Page) (rest : List Page)
    (rank : RankMap) (count : ℕ) :
    (iterPass c d (w :: rest) rank count).2 =
      (iterPass c d rest (setTo rank w (newRank c d rank w))
        (if |(rank.lookup w).getD 0 - newRank c d rank w| ≤ 1 / 1000 then count + 1
         else count)).2 := rfl

/-- C4 amended: in each pass of the iterative ranker, the new rank of a
page `w` is computed from the rank state as it stands at `w`'s turn — the
pages processed before `w` in the pass already carry their new values,
the rest still carry their pre-pass values. (The claim's "from the
pre-pass snapshot for every page" is refuted by `iterPass_ne_snapshotPass`.) -/
theorem iterPass_mixed_state (c : Corpus) (d : ℚ) (post : List Page) (w : Page) :
    ∀ (pre : List Page) (rank : RankMap) (count : ℕ), w ∉ pre → w ∉ post →
      (iterPass c d (pre ++ w :: post) rank count).1.lookup w =
        some (newRank c d (iterPass c d pre rank count).1 w) := by
  intro pre
  induction pre with
  | nil =>
    intro rank count _ hpost
    rw [List.nil_append, iterPass_cons_fst,
      iterPass_lookup_of_notMem c d post _ _ hpost, lookup_setTo_self]
    rfl
  | cons p pre ih =>
    intro rank count hpre hpost
    simp only [List.mem_cons, not_or] at hpre
    rw [List.cons_append, iterPass_cons_fst, iterPass_cons_fst c d p pre]
    exact ih _ _ hpre.2 hpost

/-- Witness for `iterPass_mixed_state` at a concrete input: in the pass
over `divergingCorpus`, page `"b"`'s new rank is the formula applied to
the state in which `"a"` has already been updated. -/
theorem iterPass_mixed_state_witness :
    (iterPass divergingCorpus (17 / 20) (["a"] ++ "b" :: ["c"])
        [("a", 1 / 3), ("b", 1 / 3), ("c", 1 / 3)] 0).1.lookup "b" =
      some (newRank divergingCorpus (17 / 20)
        (iterPass divergingCorpus (17 / 20) ["a"]
          [("a", 1 / 3), ("b", 1 / 3), ("c", 1 / 3)] 0).1 "b") :=
  iterPass_mixed_state divergingCorpus (17 / 20) ["c"] "b" ["a"]
    [("a", 1 / 3), ("b", 1 / 3), ("c", 1 / 3)] 0 (by decide) (by decide)

/-- The convergence counter returned by a pass counts exactly the pages
whose pre-pass value is within `0.001` of their new (end-of-pass) value. -/
theorem iterPass_count_spec (c : Corpus) (d : ℚ) :
    ∀ (webs : List Page) (rank : RankMap) (count : ℕ), webs.Nodup →
      (iterPass c d webs rank count).2 =
        count + webs.countP (fun w =>
          decide (|(rank.lookup w).getD 0 -
            ((iterPass c d webs rank 0).1.lookup w).getD 0| ≤ 1 / 1000)) := by
  intro webs
  induction webs with
  | nil => intro rank count _; simp [iterPass]
  | cons w rest ih =>
    intro rank count hnd
    obtain ⟨hw, hrest⟩ := List.nodup_cons.mp hnd
    have hstate : (iterPass c d (w :: rest) rank 0).1 =
        (iterPass c d rest (setTo rank w (newRank c d rank w)) 0).1 := by
      rw [iterPass_cons_fst]
      exact iterPass_fst_count c d rest _ _ 0
    have hfw : ((iterPass c d (w :: rest) rank 0).1.lookup w) =
        some (newRank c d rank w) := by
      rw [hstate, iterPass_lookup_of_notMem c d rest _ _ hw, lookup_setTo_self]
    have hcongr : rest.countP (fun w' =>
        decide (|(rank.lookup w').getD 0 -
          ((iterPass c d (w :: rest) rank 0).1.lookup w').getD 0| ≤ 1 / 1000)) =
        rest.countP (fun w' =>
          decide (|((setTo rank w (newRank c d rank w)).lookup w').getD 0 -
            ((iterPass c d rest (setTo rank w (newRank c d rank w)) 0).1.lookup
              w').getD 0| ≤ 1 / 1000)) := by
      refine List.countP_congr ?_
      intro w' hw'
      have hne : w' ≠ w := fun h => hw (h ▸ hw')
      rw [decide_eq_true_iff, decide_eq_true_iff, hstate,
        lookup_setTo_ne _ _ _ _ hne]
    rw [iterPass_cons_snd,
      ih (setTo rank w (newRank c d rank w))
        (if |(rank.lookup w).getD 0 - newRank c d rank w| ≤ 1 / 1000 then count + 1
         else count) hrest,
      List.countP_cons]
    simp only [hfw, Option.getD_some, hcongr, decide_eq_true_eq]
    by_cases hC : |(rank.lookup w).getD 0 - newRank c d rank w| ≤ 1 / 1000
    · rw [if_pos hC, if_pos hC]
      omega
    · rw [if_neg hC, if_neg hC]
      omega

/-- C6: the iterative loop's exit test `count >= len(corpus)` holds after
a pass if and only if **every** page's rank changed by at most `0.001`
relative to that page's value at the start of the pass — there is no
page-by-page early exit, and the loop never stops after a pass in which
some page moved by more than `0.001` (contrapositive of the ← direction).
The second conjunct records that this test is exactly the loop's branch. -/
theorem iterate_exit_iff (corpus : Corpus) (d : ℚ) (rank : RankMap) (fuel : ℕ)
    (hnd : (corpus.map Prod.fst).Nodup) :
    (corpus.length ≤ (iterPass corpus d (corpus.map Prod.fst) rank 0).2 ↔
      ∀ w ∈ corpus.map Prod.fst,
        |(rank.lookup w).getD 0 -
          ((iterPass corpus d (corpus.map Prod.fst) rank 0).1.lookup w).getD 0| ≤
            1 / 1000) ∧
    iterLoop corpus d (fuel + 1) rank =
      (if corpus.length ≤ (iterPass corpus d (corpus.map Prod.fst) rank 0).2 then
        some (iterPass corpus d (corpus.map Prod.fst) rank 0).1
      else iterLoop corpus d fuel (iterPass corpus d (corpus.map Prod.fst) rank 0).1) := by
  constructor
  · rw [iterPass_count_spec corpus d _ rank 0 hnd, Nat.zero_add]
    have hlen : corpus.length = (corpus.map Prod.fst).length :=
      (List.length_map _ _).symm
    rw [hlen]
    constructor
    · intro hle w hw
      have heq := le_antisymm (List.countP_le_length _) hle
      exact of_decide_eq_true (List.countP_eq_length.mp heq w hw)
    · intro hall
      exact le_of_eq (List.countP_eq_length.mpr
        (fun w hw => decide_eq_true (hall w hw))).symm
  · rfl

/-- Witness for `iterate_exit_iff` at a concrete input (the two-page
cycle at its fixed point). -/
theorem iterate_exit_iff_witness :
    (twoCycleCorpus.length ≤
        (iterPass twoCycleCorpus (17 / 20) (twoCycleCorpus.map Prod.fst)
          [("a", 1 / 2), ("b", 1 / 2)] 0).2 ↔
      ∀ w ∈ twoCycleCorpus.map Prod.fst,
        |(List.lookup w [("a", (1 : ℚ) / 2), ("b", 1 / 2)]).getD 0 -
          ((iterPass twoCycleCorpus (17 / 20) (twoCycleCorpus.map Prod.fst)
            [("a", 1 / 2), ("b", 1 / 2)] 0).1.lookup w).getD 0| ≤ 1 / 1000) ∧
    iterLoop twoCycleCorpus (17 / 20) (0 + 1) [("a", 1 / 2), ("b", 1 / 2)] =
      (if twoCycleCorpus.length ≤
          (iterPass twoCycleCorpus (17 / 20) (twoCycleCorpus.map Prod.fst)
            [("a", 1 / 2), ("b", 1 / 2)] 0).2 then
        some (iterPass twoCycleCorpus (17 / 20) (twoCycleCorpus.map Prod.fst)
          [("a", 1 / 2), ("b", 1 / 2)] 0).1
      else iterLoop twoCycleCorpus (17 / 20) 0
        (iterPass twoCycleCorpus (17 / 20) (twoCycleCorpus.map Prod.fst)
          [("a", 1 / 2), ("b", 1 / 2)] 0).1) :=
  iterate_exit_iff twoCycleCorpus (17 / 20) [("a", 1 / 2), ("b", 1 / 2)] 0
    (by decide)

/-- C9: every probability returned by `transition_model` on a non-empty
corpus with damping factor in `(0,1)` is at least `(1-d)/N`, hence
strictly positive — no page is ever assigned zero probability. -/
theorem transition_model_lower_bound (corpus : Corpus) (page : Page) (d : ℚ)
    (hd0 : 0 < d) (hd1 : d < 1) (hne : corpus ≠ []) :
    ∀ pv ∈ transition_model corpus page d,
      (1 - d) / (corpus.length : ℚ) ≤ pv.2 ∧ 0 < pv.2 := by
  have hN : (0 : ℚ) < (corpus.length : ℚ) := by
    exact_mod_cast List.length_pos.mpr hne
  have hc : 0 < (1 - d) / (corpus.length : ℚ) := div_pos (by linarith) hN
  intro pv hpv
  have hbase : ∀ qv ∈ corpus.map
      (fun wp => (wp.1, (1 - d) / (corpus.length : ℚ))),
      (1 - d) / (corpus.length : ℚ) ≤ qv.2 := by
    intro qv hqv
    simp only [List.mem_map] at hqv
    obtain ⟨wp, _, rfl⟩ := hqv
    exact le_refl _
  have hx : (0 : ℚ) ≤ d / ((((corpus.lookup page).getD []).length : ℚ)) :=
    div_nonneg hd0.le (Nat.cast_nonneg _)
  have hlb := foldl_addTo_lower_bound hx ((corpus.lookup page).getD [])
    (corpus.map (fun wp => (wp.1, (1 - d) / (corpus.length : ℚ)))) hbase pv
    (by simpa [transition_model] using hpv)
  exact ⟨hlb, lt_of_lt_of_le hc hlb⟩

/-- Witness for `transition_model_lower_bound` at a concrete input: the
entry `("1.html", 1/20)` of the worked example satisfies the bound. -/
theorem transition_model_lower_bound_witness :
    (1 - 17 / 20) / (exampleCorpus.length : ℚ) ≤ (1 : ℚ) / 20 ∧
      (0 : ℚ) < 1 / 20 := by
  have h : transition_model exampleCorpus "1.html" (17 / 20) =
      [("1.html", 1 / 20), ("2.html", 19 / 40), ("3.html", 19 / 40)] := by
    simp [transition_model, exampleCorpus, addTo, List.lookup]
    norm_num
  exact transition_model_lower_bound exampleCorpus "1.html" (17 / 20)
    (by norm_num) (by norm_num) (by decide) ("1.html", 1 / 20)
    (by rw [h]; simp)

/-- Invariant lemma for the sampling loop: it always succeeds on a
non-empty corpus, preserves the key list, and keeps every value a natural
multiple of `1/n`. -/
theorem sampleLoop_spec (corpus : Corpus) (d : ℚ) (n : ℕ) (rnd : ℕ → ℕ)
    (hne : corpus ≠ []) :
    ∀ (k : ℕ) (page : Page) (prank : RankMap),
      prank.map Prod.fst = corpus.map Prod.fst →
      (∀ pv ∈ prank, ∃ m : ℕ, pv.2 = (m : ℚ) / n) →
      ∃ res, sampleLoop corpus d n rnd k page prank = some res ∧
        res.map Prod.fst = corpus.map Prod.fst ∧
        ∀ pv ∈ res, ∃ m : ℕ, pv.2 = (m : ℚ) / n := by
  intro k
  induction k with
  | zero => exact fun page prank h1 h2 => ⟨prank, rfl, h1, h2⟩
  | succ k ih =>
    intro page prank h1 h2
    have hk : (transition_model corpus page d).map Prod.fst ≠ [] := by
      rw [transition_model_keys]
      simpa using hne
    obtain ⟨p', hp', _⟩ := randChoice_isSome hk (rnd (n - k))
    have hstep := ih p' (addTo prank p' (1 / (n : ℚ)))
      (by rw [addTo_keys]; exact h1) (addTo_nat_multiple h2 p')
    obtain ⟨res, hres, hkeys, hmult⟩ := hstep
    refine ⟨res, ?_, hkeys, hmult⟩
    rw [sampleLoop, hp']
    exact hres

/-- C10: on a non-empty corpus with `n ≥ 1`, `sample_pagerank` (with any
draw oracle) returns a mapping whose keys are exactly the corpus's keys
and whose every value is a non-negative natural multiple of `1/n` —
`k/n` where `k` counts the `1/n`-increments (draws) that page received. -/
theorem sample_pagerank_complete (corpus : Corpus) (d : ℚ) (n : ℕ)
    (rnd : ℕ → ℕ) (hne : corpus ≠ []) (hn : 1 ≤ n) :
    ∃ res, sample_pagerank corpus d n rnd = some res ∧
      res.map Prod.fst = corpus.map Prod.fst ∧
      ∀ pv ∈ res, ∃ m : ℕ, pv.2 = (m : ℚ) / n := by
  have hk : corpus.map Prod.fst ≠ [] := by simpa using hne
  obtain ⟨p0, hp0, _⟩ := randChoice_isSome hk (rnd 0)
  have hinit_keys : (corpus.map (fun wp => (wp.1, (0 : ℚ)))).map Prod.fst =
      corpus.map Prod.fst := by
    simp [List.map_map, Function.comp]
  have hinit_mult : ∀ pv ∈ corpus.map (fun wp => (wp.1, (0 : ℚ))),
      ∃ m : ℕ, pv.2 = (m : ℚ) / n := by
    intro pv hpv
    simp only [List.mem_map] at hpv
    obtain ⟨wp, _, rfl⟩ := hpv
    exact ⟨0, by simp⟩
  obtain ⟨res, hres, hkeys, hmult⟩ := sampleLoop_spec corpus d n rnd hne n p0
    (addTo (corpus.map (fun wp => (wp.1, (0 : ℚ)))) p0 (1 / (n : ℚ)))
    (by rw [addTo_keys]; exact hinit_keys) (addTo_nat_multiple hinit_mult p0)
  refine ⟨res, ?_, hkeys, hmult⟩
  rw [sample_pagerank, hp0]
  exact hres

/-- Witness for `sample_pagerank_complete` at a concrete input. -/
theorem sample_pagerank_complete_witness :
    ∃ res, sample_pagerank twoCycleCorpus (17 / 20) 1 (fun _ => 0) = some res ∧
      res.map Prod.fst = twoCycleCorpus.map Prod.fst ∧
      ∀ pv ∈ res, ∃ m : ℕ, pv.2 = (m : ℚ) / ((1 : ℕ) : ℚ) :=
  sample_pagerank_complete twoCycleCorpus (17 / 20) 1 (fun _ => 0)
    (by decide) (by decide)

/-- Symbolic one-step evaluation of the new-rank formula on
`divergingCorpus` (page `a` receives the ranks of `b` and `c`). -/
theorem diverging_newRank_a (x y z : ℚ) :
    newRank divergingCorpus 2 [("a", x), ("b", y), ("c", z)] "a" =
      -(1 / 3) + 2 * (y + z) := by
  simp [newRank, sigmaFor, divergingCorpus, lookup_cons]
  ring

/-- Symbolic one-step evaluation of the new-rank formula on
`divergingCorpus` (page `b` receives the rank of `a`). -/
theorem diverging_newRank_b (x y z : ℚ) :
    newRank divergingCorpus 2 [("a", x), ("b", y), ("c", z)] "b" =
      -(1 / 3) + 2 * x := by
  simp [newRank, sigmaFor, divergingCorpus, lookup_cons]
  ring

/-- Symbolic one-step evaluation of the new-rank formula on
`divergingCorpus` (no page links to `c`). -/
theorem diverging_newRank_c (x y z : ℚ) :
    newRank divergingCorpus 2 [("a", x), ("b", y), ("c", z)] "c" = -(1 / 3) := by
  simp [newRank, sigmaFor, divergingCorpus, lookup_cons]
  norm_num

/-- Writing page `a` of a three-page state. -/
theorem diverging_setTo_a (x y z v : ℚ) :
    setTo [("a", x), ("b", y), ("c", z)] "a" v = [("a", v), ("b", y), ("c", z)] := by
  simp [setTo]

/-- Writing page `b` of a three-page state. -/
theorem diverging_setTo_b (x y z v : ℚ) :
    setTo [("a", x), ("b", y), ("c", z)] "b" v = [("a", x), ("b", v), ("c", z)] := by
  simp [setTo]

/-- Writing page `c` of a three-page state. -/
theorem diverging_setTo_c (x y z v : ℚ) :
    setTo [("a", x), ("b", y), ("c", z)] "c" v = [("a", x), ("b", y), ("c", v)] := by
  simp [setTo]

/-- One full pass on `divergingCorpus` with damping factor 2: from a state
`(x, y, -1/3)` with `y ≥ 5/3` the pass yields `(2y-1, 4y-7/3, -1/3)` and
counts at most two converged pages (page `b` always moves by at least
`8/3 > 0.001`), so the loop cannot exit. -/
theorem diverging_pass (x y : ℚ) (hy : 5 / 3 ≤ y) :
    (iterPass divergingCorpus 2 ["a", "b", "c"]
        [("a", x), ("b", y), ("c", -(1 / 3))] 0).1 =
      [("a", 2 * y - 1), ("b", 4 * y - 7 / 3), ("c", -(1 / 3))] ∧
    (iterPass divergingCorpus 2 ["a", "b", "c"]
        [("a", x), ("b", y), ("c", -(1 / 3))] 0).2 < 3 := by
  have e1 : newRank divergingCorpus 2 [("a", x), ("b", y), ("c", -(1 / 3))] "a" =
      2 * y - 1 := by rw [diverging_newRank_a]; ring
  have e2 : newRank divergingCorpus 2 [("a", 2 * y - 1), ("b", y), ("c", -(1 / 3))]
      "b" = 4 * y - 7 / 3 := by rw [diverging_newRank_b]; ring
  have e3 : newRank divergingCorpus 2
      [("a", 2 * y - 1), ("b", 4 * y - 7 / 3), ("c", -(1 / 3))] "c" = -(1 / 3) :=
    diverging_newRank_c _ _ _
  have hbf : ¬ (|y - (4 * y - 7 / 3)| ≤ 1 / 1000) := by
    intro h
    have := (abs_le.mp h).1
    linarith
  have l1 : List.lookup "a" [("a", x), ("b", y), ("c", -(1 / 3))] = some x := by
    rw [lookup_cons, if_pos rfl]
  have l2 : List.lookup "b" [("a", 2 * y - 1), ("b", y), ("c", -(1 / 3))] =
      some y := by
    rw [lookup_cons, if_neg (by decide), lookup_cons, if_pos rfl]
  have l3 : List.lookup "c"
      [("a", 2 * y - 1), ("b", 4 * y - 7 / 3), ("c", -(1 / 3))] =
      some (-(1 / 3)) := by
    rw [lookup_cons, if_neg (by decide), lookup_cons, if_neg (by decide),
      lookup_cons, if_pos rfl]
  constructor
  · rw [iterPass_cons_fst, e1, diverging_setTo_a,
      iterPass_cons_fst, e2, diverging_setTo_b,
      iterPass_cons_fst, e3, diverging_setTo_c]
    rfl
  · rw [iterPass_cons_snd, e1, diverging_setTo_a,
      iterPass_cons_snd, e2, diverging_setTo_b,
      iterPass_cons_snd, e3, diverging_setTo_c]
    simp only [iterPass, l1, l2, l3, Option.getD_some]
    rw [if_neg hbf]
    split_ifs <;> omega

/-- Keys of the diverging corpus, in iteration order. -/
theorem diverging_keys : divergingCorpus.map Prod.fst = ["a", "b", "c"] := rfl

/-- From any state `(x, y, -1/3)` with `y ≥ 5/3`, the loop of
`iterate_pagerank` on `divergingCorpus` with damping 2 never exits,
whatever fuel it is given. -/
theorem diverging_loop :
    ∀ (fuel : ℕ) (x y : ℚ), 5 / 3 ≤ y →
      iterLoop divergingCorpus 2 fuel [("a", x), ("b", y), ("c", -(1 / 3))] =
        none := by
  intro fuel
  induction fuel with
  | zero => intro x y _; rfl
  | succ fuel ih =>
    intro x y hy
    obtain ⟨h1, h2⟩ := diverging_pass x y hy
    simp only [iterLoop, diverging_keys]
    have hlen : divergingCorpus.length = 3 := rfl
    rw [if_neg (by omega), h1]
    exact ih (2 * y - 1) (4 * y - 7 / 3) (by linarith)

/-- The first pass on `divergingCorpus` with damping 2 from the uniform
initial state `1/3` lands in the diverging region: state `(1, 5/3, -1/3)`
with zero converged pages. -/
theorem diverging_first_pass :
    (iterPass divergingCorpus 2 ["a", "b", "c"]
        [("a", 1 / 3), ("b", 1 / 3), ("c", 1 / 3)] 0).1 =
      [("a", 1), ("b", 5 / 3), ("c", -(1 / 3))] ∧
    (iterPass divergingCorpus 2 ["a", "b", "c"]
        [("a", 1 / 3), ("b", 1 / 3), ("c", 1 / 3)] 0).2 = 0 := by
  have e1 : newRank divergingCorpus 2 [("a", 1 / 3), ("b", 1 / 3), ("c", 1 / 3)]
      "a" = 1 := by rw [diverging_newRank_a]; norm_num
  have e2 : newRank divergingCorpus 2 [("a", 1), ("b", 1 / 3), ("c", 1 / 3)]
      "b" = 5 / 3 := by rw [diverging_newRank_b]; norm_num
  have e3 : newRank divergingCorpus 2 [("a", 1), ("b", 5 / 3), ("c", 1 / 3)]
      "c" = -(1 / 3) := diverging_newRank_c _ _ _
  have l1 : List.lookup "a" [("a", (1 : ℚ) / 3), ("b", 1 / 3), ("c", 1 / 3)] =
      some (1 / 3) := by
    rw [lookup_cons, if_pos rfl]
  have l2 : List.lookup "b" [("a", (1 : ℚ)), ("b", 1 / 3), ("c", 1 / 3)] =
      some (1 / 3) := by
    rw [lookup_cons, if_neg (by decide), lookup_cons, if_pos rfl]
  have l3 : List.lookup "c" [("a", (1 : ℚ)), ("b", 5 / 3), ("c", 1 / 3)] =
      some (1 / 3) := by
    rw [lookup_cons, if_neg (by decide), lookup_cons, if_neg (by decide),
      lookup_cons, if_pos rfl]
  constructor
  · rw [iterPass_cons_fst, e1, diverging_setTo_a,
      iterPass_cons_fst, e2, diverging_setTo_b,
      iterPass_cons_fst, e3, diverging_setTo_c]
    rfl
  · rw [iterPass_cons_snd, e1, diverging_setTo_a,
      iterPass_cons_snd, e2, diverging_setTo_b,
      iterPass_cons_snd, e3, diverging_setTo_c]
    simp only [iterPass, l1, l2, l3, Option.getD_some]
    rw [if_neg (by intro h; rw [abs_le] at h; obtain ⟨ha, hb⟩ := h; linarith),
      if_neg (by intro h; rw [abs_le] at h; obtain ⟨ha, hb⟩ := h; linarith),
      if_neg (by intro h; rw [abs_le] at h; obtain ⟨ha, hb⟩ := h; linarith)]

/-- C7 counterexample: `iterate_pagerank` has no iteration cap and no
`ConvergenceError` — on `divergingCorpus` with damping factor 2 its loop
never terminates (returns nothing for every amount of fuel), page `b`'s
rank growing without bound instead. -/
theorem iterate_pagerank_diverges :
    ¬ ∃ (fuel : ℕ) (res : RankMap),
        iterate_pagerank divergingCorpus 2 fuel = some res := by
  rintro ⟨fuel, res, h⟩
  cases fuel with
  | zero => exact Option.noConfusion h
  | succ fuel =>
    have hinit : divergingCorpus.map
        (fun wp => (wp.1, 1 / (divergingCorpus.length : ℚ))) =
        [("a", 1 / 3), ("b", 1 / 3), ("c", 1 / 3)] := by
      norm_num [divergingCorpus]
    rw [iterate_pagerank, hinit] at h
    obtain ⟨hp1, hp2⟩ := diverging_first_pass
    simp only [iterLoop, diverging_keys] at h
    rw [hp2] at h
    have hlen : divergingCorpus.length = 3 := rfl
    rw [if_neg (by omega), hp1] at h
    rw [diverging_loop fuel 1 (5 / 3) (by norm_num)] at h
    exact Option.noConfusion h

/-- C7 amended: the iterative ranker's loop has no iteration cap and
raises no error: whenever it returns a result, that result comes from a
pass that met the all-pages convergence test (and on inputs where no pass
ever meets it — see `iterate_pagerank_diverges` — it loops forever). -/
theorem iterLoop_some_implies_converged_pass (corpus : Corpus) (d : ℚ) :
    ∀ (fuel : ℕ) (rank res : RankMap), iterLoop corpus d fuel rank = some res →
      ∃ s : RankMap, (iterPass corpus d (corpus.map Prod.fst) s 0).1 = res ∧
        corpus.length ≤ (iterPass corpus d (corpus.map Prod.fst) s 0).2 := by
  intro fuel
  induction fuel with
  | zero => intro rank res h; exact Option.noConfusion h
  | succ fuel ih =>
    intro rank res h
    simp only [iterLoop] at h
    by_cases hc : corpus.length ≤ (iterPass corpus d (corpus.map Prod.fst) rank 0).2
    · rw [if_pos hc] at h
      exact ⟨rank, Option.some.inj h, hc⟩
    · rw [if_neg hc] at h
      exact ih _ _ h

/-- Concrete converged run of the loop on the two-page cycle, used to
witness `iterLoop_some_implies_converged_pass`. -/
theorem twoCycle_converged_run :
    iterLoop twoCycleCorpus (17 / 20) 1 [("a", 1 / 2), ("b", 1 / 2)] =
      some [("a", 1 / 2), ("b", 1 / 2)] := by
  have e1 : newRank twoCycleCorpus (17 / 20) [("a", 1 / 2), ("b", 1 / 2)] "a" =
      1 / 2 := by
    simp [newRank, sigmaFor, twoCycleCorpus, lookup_cons]
    norm_num
  have hs1 : setTo [("a", (1 : ℚ) / 2), ("b", 1 / 2)] "a" (1 / 2) =
      [("a", 1 / 2), ("b", 1 / 2)] := by simp [setTo]
  have e2 : newRank twoCycleCorpus (17 / 20) [("a", 1 / 2), ("b", 1 / 2)] "b" =
      1 / 2 := by
    simp [newRank, sigmaFor, twoCycleCorpus, lookup_cons]
    norm_num
  have hs2 : setTo [("a", (1 : ℚ) / 2), ("b", 1 / 2)] "b" (1 / 2) =
      [("a", 1 / 2), ("b", 1 / 2)] := by simp [setTo]
  have l1 : List.lookup "a" [("a", (1 : ℚ) / 2), ("b", 1 / 2)] = some (1 / 2) := by
    rw [lookup_cons, if_pos rfl]
  have l2 : List.lookup "b" [("a", (1 : ℚ) / 2), ("b", 1 / 2)] = some (1 / 2) := by
    rw [lookup_cons, if_neg (by decide), lookup_cons, if_pos rfl]
  have hkeys : twoCycleCorpus.map Prod.fst = ["a", "b"] := rfl
  have h0 : |(1 : ℚ) / 2 - 1 / 2| ≤ 1 / 1000 := by norm_num
  have hfst : (iterPass twoCycleCorpus (17 / 20) ["a", "b"]
      [("a", 1 / 2), ("b", 1 / 2)] 0).1 = [("a", 1 / 2), ("b", 1 / 2)] := by
    rw [iterPass_cons_fst, e1, hs1, iterPass_cons_fst, e2, hs2]
    rfl
  have hsnd : (iterPass twoCycleCorpus (17 / 20) ["a", "b"]
      [("a", 1 / 2), ("b", 1 / 2)] 0).2 = 2 := by
    rw [iterPass_cons_snd, e1, hs1, iterPass_cons_snd, e2, hs2]
    simp only [iterPass, l1, l2, Option.getD_some]
    rw [if_pos h0, if_pos h0]
  simp only [iterLoop, hkeys]
  rw [hsnd, hfst, if_pos (by decide)]

/-- Witness for `iterLoop_some_implies_converged_pass` at a concrete
input: the two-page cycle run returns its fixed point via a converged
pass. -/
theorem iterLoop_some_implies_converged_pass_witness :
    ∃ s : RankMap,
      (iterPass twoCycleCorpus (17 / 20) (twoCycleCorpus.map Prod.fst) s 0).1 =
        [("a", 1 / 2), ("b", 1 / 2)] ∧
      twoCycleCorpus.length ≤
        (iterPass twoCycleCorpus (17 / 20) (twoCycleCorpus.map Prod.fst) s 0).2 :=
  iterLoop_some_implies_converged_pass twoCycleCorpus (17 / 20) 1
    [("a", 1 / 2), ("b", 1 / 2)] [("a", 1 / 2), ("b", 1 / 2)]
    twoCycle_converged_run

end PageRank
